import Mathlib

/-!
Verification development for the media-scraping pipeline in `src/main.py`.

The Python source is shallowly embedded below:
pure helpers (`username_from_instagram_url`, `filename_for`, the link
classifier, the round-robin split in `main`) become Lean functions over
`String`/`List`; the stateful per-URL worker loop becomes explicit state
passing over a `LoopState`; external effects (the outcome of one
`requests.get` attempt, the outcome of `download_with_retries` for a given
href, today's date, the content of `downloaded.json` on disk) become
explicit parameters.  Strings are modelled at the ASCII level (Python's
`str.lower` and `\W` are Unicode-aware; every URL and label this program
manipulates is ASCII).
-/

namespace Scraping

/-! ### Generic string helpers (Python `in`, `endswith`, `lower`) -/

/-- `stripPre pre s` removes `pre` from the front of `s`, or fails. -/
def stripPre : List Char → List Char → Option (List Char)
  | [], s => some s
  | _ :: _, [] => none
  | p :: ps, c :: cs => if p = c then stripPre ps cs else none

/-- Does `s` start with `pre`? -/
def startsWithL (pre s : List Char) : Bool :=
  (stripPre pre s).isSome

/-- Python `needle in hay` on strings: substring containment. -/
def hasSub (needle : List Char) : List Char → Bool
  | [] => startsWithL needle []
  | c :: rest => startsWithL needle (c :: rest) || hasSub needle rest

/-- Python `s in t` for `String`s. -/
def containsSub (hay needle : String) : Bool :=
  hasSub needle.toList hay.toList

/-- Python `s.endswith(suf)`. -/
def endsWithStr (s suf : String) : Bool :=
  List.isSuffixOf suf.toList s.toList

/-- Python `s.endswith((suf1, suf2, ...))`: any of the suffixes. -/
def endsWithAny (s : String) (sufs : List String) : Bool :=
  sufs.any (endsWithStr s)

/-- ASCII model of Python `str.lower()`. -/
def pyLower (s : String) : String :=
  String.mk (s.toList.map Char.toLower)

/-! ### Config constants (`src/main.py` lines 12-20) -/

/-- `PARALLEL_PAGES = 2`: number of concurrent browser pages. -/
def PARALLEL_PAGES : Nat := 2

/-- `DOWNLOAD_RETRY = 2`: number of retries for file download. -/
def DOWNLOAD_RETRY : Nat := 2

/-! ### `username_from_instagram_url` (lines 30-41)

The Python function is
`re.search(r"instagram\.com/(?:stories/|u/|p/)?([^/?#]+)/?", url)` followed,
when the search fails, by the fallback `re.sub(r"\W+", "_", url)[:50]`.
The regex engine's behaviour on this particular pattern is embedded
directly: `re.search` scans start positions left to right; at a position
the literal `instagram.com/` must match, then the optional group tries the
alternatives `stories/`, `u/`, `p/` and finally the empty string (greedy,
with backtracking), then `[^/?#]+` captures the maximal nonempty run of
characters other than `/`, `?`, `#`; the trailing `/?` is optional and
never constrains the match. -/

/-- Characters excluded by `[^/?#]`. -/
def badChar (c : Char) : Bool :=
  c = '/' || c = '?' || c = '#'

/-- The capture group `([^/?#]+)`: maximal nonempty run of non-`/?#` chars. -/
def captureFrom (rest : List Char) : Option (List Char) :=
  let cap := rest.takeWhile (fun c => !badChar c)
  if cap.isEmpty then none else some cap

/-- The optional group `(?:stories/|u/|p/)?` followed by the capture,
with the regex engine's backtracking order. -/
def tryAlts (rest : List Char) : Option (List Char) :=
  ((stripPre "stories/".toList rest).bind captureFrom) <|>
  ((stripPre "u/".toList rest).bind captureFrom) <|>
  ((stripPre "p/".toList rest).bind captureFrom) <|>
  captureFrom rest

/-- Try the whole pattern at the current position. -/
def matchAt (s : List Char) : Option (List Char) :=
  (stripPre "instagram.com/".toList s).bind tryAlts

/-- `re.search`: try the pattern at each start position, left to right;
returns the capture group of the leftmost successful match. -/
def regexSearch : List Char → Option (List Char)
  | [] => matchAt []
  | c :: rest => matchAt (c :: rest) <|> regexSearch rest

/-- ASCII model of Python's word character class `\w`: `[A-Za-z0-9_]`. -/
def isWordChar (c : Char) : Bool :=
  c.isAlphanum || c == '_'

/-- Worker for `re.sub(r"\W+", "_", url)`: each maximal nonempty run of
non-word characters is replaced by a single `_`.  The flag records whether
we are currently inside such a run. -/
def subNonWordGo : List Char → Bool → List Char
  | [], _ => []
  | c :: rest, inRun =>
    if isWordChar c then c :: subNonWordGo rest false
    else if inRun then subNonWordGo rest true
    else '_' :: subNonWordGo rest true

/-- Python `re.sub(r"\W+", "_", url)`. -/
def pySubNonWord (l : List Char) : List Char :=
  subNonWordGo l false

/-- `username_from_instagram_url` (lines 30-41): extract the username from
a typical instagram story/post URL, falling back to the sanitized,
length-bounded URL when the pattern does not match. -/
def username_from_instagram_url (url : String) : String :=
  match regexSearch url.toList with
  | some cap => String.mk cap
  | none => String.mk ((pySubNonWord url.toList).take 50)

/-! ### `load_downloaded_json` (lines 62-70)

`json.loads` is an external library call; its outcome on the bytes on disk
is folded into the input: the persisted file is either missing, present but
not parseable as JSON (`json.loads` raises), or present and parsed to a
JSON value.  The JSON value domain is embedded as an inductive (numbers as
integers; the records this program writes contain only strings and
arrays). -/

/-- JSON values, as produced by `json.loads`. -/
inductive Json where
  | null : Json
  | bool (b : Bool) : Json
  | num (n : Int) : Json
  | str (s : String) : Json
  | arr (xs : List Json) : Json
  | obj (fields : List (String × Json)) : Json

/-- State of `downloads/<user>/downloaded.json` on disk, with the outcome
of `json.loads` folded in. -/
inductive FileState where
  | missing : FileState
  | malformed : FileState
  | parsed (j : Json) : FileState

/-- The empty record `{"videos": [], "images": []}`. -/
def emptyRecordJson : Json :=
  .obj [("videos", .arr []), ("images", .arr [])]

/-- `load_downloaded_json` (lines 62-70): if the file exists, parse it,
returning the empty record when parsing raises; if it does not exist,
return the empty record. -/
def load_downloaded_json : FileState → Json
  | .missing => emptyRecordJson
  | .malformed => emptyRecordJson
  | .parsed j => j

/-- Is a JSON value a list of strings? -/
def isStrArr : Json → Bool
  | .arr xs => xs.all (fun x => match x with | .str _ => true | _ => false)
  | _ => false

/-- Is a JSON value a well-formed `DownloadRecord`
`{"videos": [url, ...], "images": [url, ...]}`? -/
def isValidRecord : Json → Bool
  | .obj fields =>
    match fields.lookup "videos", fields.lookup "images" with
    | some v, some i => isStrArr v && isStrArr i
    | _, _ => false
  | _ => false

/-! ### `download_with_retries` (lines 88-105)

The body of one attempt (`requests.get`, `raise_for_status`, streaming the
body to disk) is external I/O; whether attempt number `a` succeeds is the
oracle `attemptOk a`.  The function returns the list of attempt numbers
actually tried together with the final result, mirroring
`for attempt in range(1, DOWNLOAD_RETRY + 2)` with an early `return True`
on success and `return False` after the loop. -/

/-- The retry loop over the remaining attempt numbers. -/
def attemptLoop (attemptOk : Nat → Bool) : List Nat → List Nat × Bool
  | [] => ([], false)
  | a :: rest =>
    if attemptOk a then ([a], true)
    else
      let r := attemptLoop attemptOk rest
      (a :: r.1, r.2)

/-- `download_with_retries` (lines 88-105), parameterized by the configured
retry count (the source uses the constant `DOWNLOAD_RETRY`).
`range(1, retry + 2)` is the attempt numbers `1, ..., retry + 1`. -/
def download_with_retries (retry : Nat) (attemptOk : Nat → Bool) : List Nat × Bool :=
  attemptLoop attemptOk (List.range' 1 (retry + 1))

/-! ### The link classifier (worker lines 223-240) -/

/-- Media kinds. -/
inductive MediaKind where
  | video : MediaKind
  | image : MediaKind
deriving DecidableEq, Repr

/-- The image extensions tested by the classifier. -/
def imageExts : List String := [".jpg", ".jpeg", ".png", ".webp"]

/-- The video extensions tested by the classifier. -/
def videoExts : List String := [".mp4", ".mov"]

/-- The per-link classification decision (lines 226-240): with
`t = (title or "").lower()`, label containing `video` wins; else label
containing `image`/`photo` or an image-extension href gives image; else an
`.mp4`/`.mov` href gives video; else a second image-extension test, and
finally the image fallback. -/
def classify (title href : String) : MediaKind :=
  let t := pyLower title
  if containsSub t "video" then .video
  else if containsSub t "image" || containsSub t "photo"
      || endsWithAny (pyLower href) imageExts then .image
  else if endsWithAny (pyLower href) videoExts then .video
  else if endsWithAny (pyLower href) imageExts then .image
  else .image

/-- The classifier as the spec's §4.3 describes it, and equally the code's
classifier with the unreachable image-extension test of line 236 removed:
1. label contains `video` → video; 2. label contains `image`/`photo` or
image-extension href → image; 3. video-extension href → video;
4. default → image. -/
def classifySpec (title href : String) : MediaKind :=
  let t := pyLower title
  if containsSub t "video" then .video
  else if containsSub t "image" || containsSub t "photo"
      || endsWithAny (pyLower href) imageExts then .image
  else if endsWithAny (pyLower href) videoExts then .video
  else .image

/-- The classification loop (lines 223-240): split the extracted
`(title, href)` pairs into the `video_links` and `image_links` buckets,
preserving order. -/
def classifyLinks : List (String × String) → List (String × String) × List (String × String)
  | [] => ([], [])
  | (title, href) :: rest =>
    let r := classifyLinks rest
    match classify title href with
    | .video => ((title, href) :: r.1, r.2)
    | .image => (r.1, (title, href) :: r.2)

/-! ### `filename_for` (lines 78-85) -/

/-- `filename_for` (lines 78-85): `{today}_story_{index}.{ext}` with ext
`mp4` for kind `video` and `jpg` otherwise.  `user_root` is accepted and
ignored exactly as in the source; `today` stands for
`datetime.now().strftime("%Y-%m-%d")`. -/
def filename_for (user_root : String) (kind : String) (index : Nat) (today : String) : String :=
  let _ := user_root
  let ext := if kind == "video" then "mp4" else "jpg"
  today ++ "_story_" ++ toString index ++ "." ++ ext

/-! ### The worker's per-URL download loops (lines 201-286)

The in-memory `downloaded` dict is a `Record`; the bytes of
`downloaded.json` on disk are an `Option Record` (`none` = file absent; a
malformed file also loads as the empty record, cf. `load_downloaded_json`).
The outcome of `download_with_retries(href, dest)` for a given href is the
oracle `Env.ok`; `Env.today` is the date, `Env.userRoot` the user's root
directory.  Each handled link is logged as a `DlEvent`, so that skips,
attempts, indices, destination filenames and successes are observable. -/

/-- The `downloaded` dict: `{"videos": [...], "images": [...]}`. -/
structure Record where
  videos : List String
  images : List String
deriving DecidableEq, Repr

/-- External inputs of one worker iteration. -/
structure Env where
  ok : String → Bool
  today : String
  userRoot : String

/-- Observable event for one handled link. -/
inductive DlEvent where
  | skipped (kind : String) (href : String) : DlEvent
  | attempted (kind : String) (href : String) (index : Nat) (filename : String) (ok : Bool) : DlEvent
deriving DecidableEq, Repr

/-- State threaded through the two download loops of one URL iteration. -/
structure LoopState where
  downloaded : Record
  persisted : Option Record
  vidIndex : Nat
  imgIndex : Nat
  events : List DlEvent
deriving DecidableEq, Repr

/-- One step of the video loop (lines 253-266): links already in
`downloaded["videos"]` are skipped; otherwise the destination filename is
built from the current `vid_index` and the download attempted; on success
the href is appended to the bucket, the whole record is saved
(`save_downloaded_json`) and the index advances; on failure nothing
changes but the attempt is logged. -/
def stepVideo (env : Env) (s : LoopState) (link : String × String) : LoopState :=
  if s.downloaded.videos.contains link.2 then
    { s with events := s.events ++ [.skipped "video" link.2] }
  else
    let filename := filename_for env.userRoot "video" s.vidIndex env.today
    if env.ok link.2 then
      let d : Record := { s.downloaded with videos := s.downloaded.videos ++ [link.2] }
      { downloaded := d, persisted := some d, vidIndex := s.vidIndex + 1,
        imgIndex := s.imgIndex,
        events := s.events ++ [.attempted "video" link.2 s.vidIndex filename true] }
    else
      { s with events := s.events ++ [.attempted "video" link.2 s.vidIndex filename false] }

/-- One step of the image loop (lines 270-283), symmetric to `stepVideo`. -/
def stepImage (env : Env) (s : LoopState) (link : String × String) : LoopState :=
  if s.downloaded.images.contains link.2 then
    { s with events := s.events ++ [.skipped "image" link.2] }
  else
    let filename := filename_for env.userRoot "image" s.imgIndex env.today
    if env.ok link.2 then
      let d : Record := { s.downloaded with images := s.downloaded.images ++ [link.2] }
      { downloaded := d, persisted := some d, vidIndex := s.vidIndex,
        imgIndex := s.imgIndex + 1,
        events := s.events ++ [.attempted "image" link.2 s.imgIndex filename true] }
    else
      { s with events := s.events ++ [.attempted "image" link.2 s.imgIndex filename false] }

/-- The video loop over `video_links` (lines 253-266). -/
def processVideos (env : Env) (s : LoopState) (links : List (String × String)) : LoopState :=
  links.foldl (stepVideo env) s

/-- The image loop over `image_links` (lines 270-283). -/
def processImages (env : Env) (s : LoopState) (links : List (String × String)) : LoopState :=
  links.foldl (stepImage env) s

/-- Loading the record at the `Record` level of abstraction: a missing
file gives the empty record (and `downloaded.setdefault` on lines 215-216
guarantees both keys are present). -/
def loadRecordDisk : Option Record → Record
  | none => { videos := [], images := [] }
  | some r => r

/-- One URL-processing iteration of the worker loop (lines 208-283),
given the extraction result `results`: load the record; when extraction
returned no links, `continue` with nothing changed; otherwise classify,
run the video loop with `vid_index = 0`, then the image loop with
`img_index = 0`, and return the final disk state and the event log. -/
def processUrl (env : Env) (disk : Option Record) (results : List (String × String)) :
    Option Record × List DlEvent :=
  let downloaded := loadRecordDisk disk
  if results.isEmpty then (disk, [])
  else
    let buckets := classifyLinks results
    let s0 : LoopState :=
      { downloaded := downloaded, persisted := disk, vidIndex := 0, imgIndex := 0, events := [] }
    let s1 := processVideos env s0 buckets.1
    let s2 := processImages env s1 buckets.2
    (s2.persisted, s2.events)

/-- The worker's iteration over its assigned URLs (lines 208-283):
`extract` is the extraction session's result per URL; `disks` maps each
username to its persisted record.  Returns the final disk map and the
concatenated event log. -/
def workerRun (env : Env) (extract : String → List (String × String)) :
    List String → (String → Option Record) → (String → Option Record) × List DlEvent
  | [], disks => (disks, [])
  | url :: rest, disks =>
    let username := username_from_instagram_url url
    let r := processUrl env (disks username) (extract url)
    let disks2 : String → Option Record := fun u => if u = username then r.1 else disks u
    let rest2 := workerRun env extract rest disks2
    (rest2.1, r.2 ++ rest2.2)

/-! ### `main` (lines 290-303) -/

/-- The round-robin split of `main` (lines 296-300):
`groups = [[] for _ in range(p)]`, then
`for i, u in enumerate(urls): groups[i % p].append(u)`. -/
def roundRobin (urls : List α) (p : Nat) : List (List α) :=
  urls.enum.foldl
    (fun groups iu => groups.set (iu.1 % p) (groups.getD (iu.1 % p) [] ++ [iu.2]))
    (List.replicate p ([] : List α))

/-- `main` (lines 290-303): with no URLs it reports and returns without
spawning workers; otherwise it builds the round-robin groups and spawns
one worker per group (worker ids are the group positions). -/
def mainModel (urls : List String) (p : Nat) : Option (List (List String)) :=
  if urls.isEmpty then none
  else some (roundRobin urls p)

/-! ### Observations over event logs (for the naming-index invariant) -/

/-- Number of successful download attempts of the given kind in a log. -/
def countSucc (kind : String) : List DlEvent → Nat
  | [] => 0
  | .attempted k _ _ _ b :: rest =>
    (if k == kind && b then 1 else 0) + countSucc kind rest
  | .skipped _ _ :: rest => countSucc kind rest

/-- The indices of the successful download attempts of the given kind,
in log order. -/
def succIndices (kind : String) : List DlEvent → List Nat
  | [] => []
  | .attempted k _ i _ b :: rest =>
    if k == kind && b then i :: succIndices kind rest else succIndices kind rest
  | .skipped _ _ :: rest => succIndices kind rest

/-- The naming invariant of the download loops for one media kind: the
running index equals the number of successful downloads of that kind
logged so far, the successful attempts carry the consecutive indices
`0, 1, 2, ...`, and every attempted download (successful or not) was
aimed at the destination filename built from the number of successes of
its kind logged strictly before it. -/
def namingInv (env : Env) (kind : String) (idx : Nat) (events : List DlEvent) : Prop :=
  idx = countSucc kind events ∧
  succIndices kind events = List.range idx ∧
  ∀ k href i fn b, events[k]? = some (DlEvent.attempted kind href i fn b) →
    i = countSucc kind (events.take k) ∧
    fn = filename_for env.userRoot kind i env.today

/-! ## Theorems -/

/-! ### C1: the retry bound of `download_with_retries` -/

theorem attemptLoop_allFail (attemptOk : Nat → Bool) (h : ∀ a, attemptOk a = false) :
    ∀ l : List Nat, attemptLoop attemptOk l = (l, false) := by
  intro l
  induction l with
  | nil => rfl
  | cons a rest ih => simp [attemptLoop, h a, ih]

/-- C1, counterexample: against an always-failing source, the engine
configured with the source's retry count `DOWNLOAD_RETRY = 2` makes 3
fetch attempts, not `DOWNLOAD_RETRY + 2 = 4` as the claim states
(`range(1, retry + 2)` has `retry + 1` elements). -/
theorem claim_C1_counterexample :
    (download_with_retries DOWNLOAD_RETRY (fun _ => false)).1.length ≠ DOWNLOAD_RETRY + 2 := by
  decide

/-- C1, amended: for every configured retry count `R`, a call to
`download_with_retries` against a source whose every request fails makes
exactly `R + 1` fetch attempts and then returns false. -/
theorem claim_C1_retry_bound (R : Nat) (attemptOk : Nat → Bool)
    (h : ∀ a, attemptOk a = false) :
    (download_with_retries R attemptOk).1.length = R + 1 ∧
    (download_with_retries R attemptOk).2 = false := by
  unfold download_with_retries
  rw [attemptLoop_allFail attemptOk h]
  exact ⟨by simp, rfl⟩

theorem claim_C1_witness :
    (download_with_retries 2 (fun _ => false)).1.length = 2 + 1 ∧
    (download_with_retries 2 (fun _ => false)).2 = false :=
  claim_C1_retry_bound 2 (fun _ => false) (fun _ => rfl)

/-! ### C2: the classifier is total, deterministic, and follows the
precedence order -/

/-- C2: every `(label, href)` pair is assigned exactly one of
video/image (the classifier is a total function into `MediaKind`); the
decision follows the spec's precedence order (`classifySpec`); and in
particular label `Download Video HD` with an `.jpg` href is video,
because label precedence beats extension. -/
theorem claim_C2_classifier :
    (∀ title href, classify title href = .video ∨ classify title href = .image) ∧
    (∀ title href, classify title href = classifySpec title href) ∧
    classify "Download Video HD" "http://x/a.jpg" = .video := by
  refine ⟨?_, ?_, ?_⟩
  · intro title href
    cases hc : classify title href
    · exact Or.inl rfl
    · exact Or.inr rfl
  · intro title href
    unfold classify classifySpec
    repeat' split
    all_goals rfl
  · decide

/-! ### C4: loading a malformed persisted record -/

/-- C4, counterexample: a persisted file holding `[1, 2]` is valid JSON
but not a valid `DownloadRecord`; `load_downloaded_json` returns the
parsed array as-is, not the empty record (only a missing file or a parse
failure is replaced by the empty record). -/
theorem claim_C4_counterexample :
    isValidRecord (Json.arr [Json.num 1, Json.num 2]) = false ∧
    load_downloaded_json (.parsed (Json.arr [Json.num 1, Json.num 2])) =
      Json.arr [Json.num 1, Json.num 2] ∧
    Json.arr [Json.num 1, Json.num 2] ≠ emptyRecordJson := by
  refine ⟨rfl, rfl, ?_⟩
  intro h
  simp only [emptyRecordJson] at h
  exact Json.noConfusion h

/-- C4, amended: `load_downloaded_json` returns the empty record on a
missing file and on unparseable JSON; content that parses as JSON is
returned as parsed, even when it is not a valid `DownloadRecord`. -/
theorem claim_C4_load_record :
    load_downloaded_json .missing = emptyRecordJson ∧
    load_downloaded_json .malformed = emptyRecordJson ∧
    ∀ j, load_downloaded_json (.parsed j) = j :=
  ⟨rfl, rfl, fun _ => rfl⟩

/-! ### C7: the round-robin partition of `main` -/

theorem roundRobin_foldl_length (p : Nat) (l : List (Nat × α)) :
    ∀ groups : List (List α),
      (List.foldl
        (fun g (iu : Nat × α) => g.set (iu.1 % p) (g.getD (iu.1 % p) [] ++ [iu.2]))
        groups l).length = groups.length := by
  induction l with
  | nil => intro groups; rfl
  | cons iu rest ih =>
    intro groups
    simp only [List.foldl_cons]
    rw [ih]
    exact List.length_set ..

/-- C7: for a non-empty URL list and positive parallelism, `main`
partitions the URLs round-robin into exactly `parallelism` groups and
spawns one worker per group; with 4 URLs and parallelism 2, worker 0
receives the URLs at indices 0 and 2 and worker 1 those at indices
1 and 3. -/
theorem claim_C7_round_robin :
    (∀ (urls : List String) (p : Nat), urls ≠ [] → 0 < p →
      ∃ groups, mainModel urls p = some groups ∧ groups.length = p) ∧
    (∀ a b c d : String, mainModel [a, b, c, d] 2 = some [[a, c], [b, d]]) := by
  constructor
  · intro urls p hne _
    refine ⟨roundRobin urls p, ?_, ?_⟩
    · simp [mainModel, List.isEmpty_iff, hne]
    · unfold roundRobin
      rw [roundRobin_foldl_length]
      exact List.length_replicate ..
  · intro a b c d
    simp [mainModel, roundRobin, List.enum, List.enumFrom, List.getD]

theorem claim_C7_witness :
    ∃ groups, mainModel ["u0", "u1", "u2", "u3"] 2 = some groups ∧ groups.length = 2 :=
  claim_C7_round_robin.1 ["u0", "u1", "u2", "u3"] 2 (by simp) (by decide)

/-! ### C9: the image-extension check in the default branch is dead code -/

/-- C9: in the classifier's default branch (no label signal matched),
the href is already known not to end in an image extension, so the second
image-extension test on line 236 is unreachable; removing it
(`classifySpec`) yields an extensionally equal classifier. -/
theorem claim_C9_unreachable_check :
    (∀ title href,
      containsSub (pyLower title) "video" = false →
      (containsSub (pyLower title) "image" || containsSub (pyLower title) "photo"
        || endsWithAny (pyLower href) imageExts) = false →
      endsWithAny (pyLower href) imageExts = false) ∧
    (∀ title href, classify title href = classifySpec title href) := by
  constructor
  · intro title href _ h2
    simp only [Bool.or_eq_false_iff] at h2
    exact h2.2
  · intro title href
    unfold classify classifySpec
    repeat' split
    all_goals rfl

theorem claim_C9_witness :
    endsWithAny (pyLower "http://a/v.bin") imageExts = false :=
  claim_C9_unreachable_check.1 "x" "http://a/v.bin" (by decide) (by decide)

/-! ### C3: totality of `username_from_instagram_url` -/

theorem captureFrom_sound (rest cap : List Char) (h : captureFrom rest = some cap) :
    cap ≠ [] ∧ ∀ c ∈ cap, badChar c = false := by
  by_cases he : (List.takeWhile (fun c => !badChar c) rest).isEmpty
  · simp only [captureFrom] at h
    rw [if_pos he] at h
    exact absurd h (by simp)
  · simp only [captureFrom] at h
    rw [if_neg he] at h
    cases h
    constructor
    · simpa [List.isEmpty_iff] using he
    · intro c hc
      have := List.mem_takeWhile_imp hc
      simpa using this

theorem tryAlts_sound (rest cap : List Char) (h : tryAlts rest = some cap) :
    cap ≠ [] ∧ ∀ c ∈ cap, badChar c = false := by
  unfold tryAlts at h
  rcases ho : stripPre "stories/".toList rest with _ | r1 <;> rw [ho] at h
  · rcases ho2 : stripPre "u/".toList rest with _ | r2 <;> rw [ho2] at h
    · rcases ho3 : stripPre "p/".toList rest with _ | r3 <;> rw [ho3] at h
      · simp only [Option.bind, Option.orElse_none, Option.none_orElse] at h
        exact captureFrom_sound rest cap h
      · simp only [Option.some_bind, Option.none_orElse] at h
        rcases hc : captureFrom r3 with _ | c3 <;> rw [hc] at h
        · simp at h
          exact captureFrom_sound rest cap h
        · simp at h
          cases h
          exact captureFrom_sound r3 cap hc
    · simp only [Option.some_bind, Option.none_orElse] at h
      rcases hc : captureFrom r2 with _ | c2 <;> rw [hc] at h
      · simp only [Option.none_orElse] at h
        rcases ho3 : stripPre "p/".toList rest with _ | r3 <;> rw [ho3] at h
        · simp at h
          exact captureFrom_sound rest cap h
        · simp only [Option.some_bind] at h
          rcases hc3 : captureFrom r3 with _ | c3 <;> rw [hc3] at h
          · simp at h
            exact captureFrom_sound rest cap h
          · simp at h
            cases h
            exact captureFrom_sound r3 cap hc3
      · simp at h
        cases h
        exact captureFrom_sound r2 cap hc
  · simp only [Option.some_bind] at h
    rcases hc : captureFrom r1 with _ | c1 <;> rw [hc] at h
    · simp only [Option.none_orElse] at h
      rcases ho2 : stripPre "u/".toList rest with _ | r2 <;> rw [ho2] at h
      · rcases ho3 : stripPre "p/".toList rest with _ | r3 <;> rw [ho3] at h
        · simp at h
          exact captureFrom_sound rest cap h
        · simp only [Option.some_bind] at h
          rcases hc3 : captureFrom r3 with _ | c3 <;> rw [hc3] at h
          · simp at h
            exact captureFrom_sound rest cap h
          · simp at h
            cases h
            exact captureFrom_sound r3 cap hc3
      · simp only [Option.some_bind] at h
        rcases hc2 : captureFrom r2 with _ | c2 <;> rw [hc2] at h
        · simp only [Option.none_orElse] at h
          rcases ho3 : stripPre "p/".toList rest with _ | r3 <;> rw [ho3] at h
          · simp at h
            exact captureFrom_sound rest cap h
          · simp only [Option.some_bind] at h
            rcases hc3 : captureFrom r3 with _ | c3 <;> rw [hc3] at h
            · simp at h
              exact captureFrom_sound rest cap h
            · simp at h
              cases h
              exact captureFrom_sound r3 cap hc3
        · simp at h
          cases h
          exact captureFrom_sound r2 cap hc2
    · simp at h
      cases h
      exact captureFrom_sound r1 cap hc

theorem matchAt_sound (s cap : List Char) (h : matchAt s = some cap) :
    cap ≠ [] ∧ ∀ c ∈ cap, badChar c = false := by
  unfold matchAt at h
  rcases ho : stripPre "instagram.com/".toList s with _ | rest <;> rw [ho] at h
  · exact absurd h (by simp)
  · simp only [Option.some_bind] at h
    exact tryAlts_sound rest cap h

theorem regexSearch_sound (s cap : List Char) (h : regexSearch s = some cap) :
    cap ≠ [] ∧ ∀ c ∈ cap, badChar c = false := by
  induction s with
  | nil => exact matchAt_sound [] cap h
  | cons c rest ih =>
    unfold regexSearch at h
    rcases hm : matchAt (c :: rest) with _ | cap2 <;> rw [hm] at h
    · simp only [Option.none_orElse] at h
      exact ih h
    · simp only [Option.some_orElse] at h
      cases h
      exact matchAt_sound (c :: rest) cap hm

theorem subNonWordGo_wordChars (l : List Char) :
    ∀ flag, ∀ c ∈ subNonWordGo l flag, isWordChar c = true := by
  induction l with
  | nil => intro flag c hc; exact absurd hc (by simp [subNonWordGo])
  | cons a rest ih =>
    intro flag c hc
    unfold subNonWordGo at hc
    split at hc
    · rename_i ha
      rcases List.mem_cons.mp hc with h | h
      · rw [h]; exact ha
      · exact ih false c h
    · split at hc
      · exact ih true c hc
      · rcases List.mem_cons.mp hc with h | h
        · rw [h]; rfl
        · exact ih true c h

theorem subNonWordGo_ne_nil (a : Char) (rest : List Char) :
    subNonWordGo (a :: rest) false ≠ [] := by
  unfold subNonWordGo
  split
  · simp
  · simp

/-- C3, counterexample: the empty string matches no supported path shape
and the fallback `re.sub(r"\W+", "_", url)[:50]` returns the empty string
on it, so the result is not non-empty as the claim demands. -/
theorem claim_C3_counterexample :
    regexSearch "".toList = none ∧ username_from_instagram_url "" = "" :=
  ⟨rfl, rfl⟩

/-- C3, amended: `username_from_instagram_url` is total.  When the regex
search succeeds, it returns exactly the captured path segment, which is
non-empty and free of `/`, `?`, `#`.  When the search fails, it returns
the sanitized, 50-character-bounded fallback, whose characters are all
word characters (filesystem-safe), whose length is at most 50, and which
is non-empty whenever the URL itself is non-empty. -/
theorem claim_C3_resolve_user (url : String) :
    (∀ cap, regexSearch url.toList = some cap →
      username_from_instagram_url url = String.mk cap ∧ cap ≠ [] ∧
      ∀ c ∈ cap, badChar c = false) ∧
    (regexSearch url.toList = none →
      username_from_instagram_url url = String.mk ((pySubNonWord url.toList).take 50) ∧
      (url ≠ "" → username_from_instagram_url url ≠ "") ∧
      (username_from_instagram_url url).length ≤ 50 ∧
      ∀ c ∈ (username_from_instagram_url url).toList, isWordChar c = true) := by
  constructor
  · intro cap hcap
    refine ⟨?_, regexSearch_sound url.toList cap hcap⟩
    unfold username_from_instagram_url
    rw [hcap]
  · intro hnone
    have hdef : username_from_instagram_url url =
        String.mk ((pySubNonWord url.toList).take 50) := by
      unfold username_from_instagram_url
      rw [hnone]
    refine ⟨hdef, ?_, ?_, ?_⟩
    · intro hne
      rw [hdef]
      intro hcontra
      have hl : (pySubNonWord url.toList).take 50 = [] := by
        have : String.mk ((pySubNonWord url.toList).take 50) = String.mk [] := hcontra
        injection this
      rcases hu : url.toList with _ | ⟨a, rest⟩
      · exact hne (show url = "" from congrArg String.mk hu)
      · rw [hu] at hl
        unfold pySubNonWord at hl
        rcases hs : subNonWordGo (a :: rest) false with _ | ⟨b, brest⟩
        · exact subNonWordGo_ne_nil a rest hs
        · rw [hs] at hl
          simp at hl
    · rw [hdef]
      show ((pySubNonWord url.toList).take 50).length ≤ 50
      rw [List.length_take]
      exact min_le_left ..
    · rw [hdef]
      intro c hc
      have hc2 : c ∈ (pySubNonWord url.toList).take 50 := hc
      have := List.take_subset 50 (pySubNonWord url.toList) hc2
      exact subNonWordGo_wordChars url.toList false c this

theorem claim_C3_witness :
    username_from_instagram_url "https://instagram.com/stories/jack" =
      String.mk "jack".toList ∧
    username_from_instagram_url "http://example.org/a-b" ≠ "" ∧
    (username_from_instagram_url "http://example.org/a-b").length ≤ 50 := by
  have h1 := (claim_C3_resolve_user "https://instagram.com/stories/jack").1
    "jack".toList (by rfl)
  have h2 := (claim_C3_resolve_user "http://example.org/a-b").2 (by rfl)
  exact ⟨h1.1, h2.2.1 (by decide), h2.2.2.1⟩

/-! ### C5: write-through persistence and append-only growth -/

theorem stepVideo_growth (env : Env) (s : LoopState) (l : String × String) :
    (∃ t, (stepVideo env s l).downloaded.videos = s.downloaded.videos ++ t) ∧
    (stepVideo env s l).downloaded.images = s.downloaded.images := by
  unfold stepVideo
  split
  · exact ⟨⟨[], by simp⟩, rfl⟩
  · split
    · exact ⟨⟨[l.2], rfl⟩, rfl⟩
    · exact ⟨⟨[], by simp⟩, rfl⟩

theorem stepImage_growth (env : Env) (s : LoopState) (l : String × String) :
    (∃ t, (stepImage env s l).downloaded.images = s.downloaded.images ++ t) ∧
    (stepImage env s l).downloaded.videos = s.downloaded.videos := by
  unfold stepImage
  split
  · exact ⟨⟨[], by simp⟩, rfl⟩
  · split
    · exact ⟨⟨[l.2], rfl⟩, rfl⟩
    · exact ⟨⟨[], by simp⟩, rfl⟩

theorem processVideos_growth (env : Env) (links : List (String × String)) :
    ∀ s : LoopState,
      (∃ t, (processVideos env s links).downloaded.videos = s.downloaded.videos ++ t) ∧
      (processVideos env s links).downloaded.images = s.downloaded.images := by
  induction links with
  | nil => intro s; exact ⟨⟨[], by simp [processVideos]⟩, rfl⟩
  | cons l rest ih =>
    intro s
    obtain ⟨⟨t1, ht1⟩, h2⟩ := stepVideo_growth env s l
    obtain ⟨⟨t2, ht2⟩, h4⟩ := ih (stepVideo env s l)
    unfold processVideos at ht2 h4 ⊢
    rw [List.foldl_cons]
    refine ⟨⟨t1 ++ t2, ?_⟩, ?_⟩
    · rw [ht2, ht1, List.append_assoc]
    · rw [h4, h2]

theorem processImages_growth (env : Env) (links : List (String × String)) :
    ∀ s : LoopState,
      (∃ t, (processImages env s links).downloaded.images = s.downloaded.images ++ t) ∧
      (processImages env s links).downloaded.videos = s.downloaded.videos := by
  induction links with
  | nil => intro s; exact ⟨⟨[], by simp [processImages]⟩, rfl⟩
  | cons l rest ih =>
    intro s
    obtain ⟨⟨t1, ht1⟩, h2⟩ := stepImage_growth env s l
    obtain ⟨⟨t2, ht2⟩, h4⟩ := ih (stepImage env s l)
    unfold processImages at ht2 h4 ⊢
    rw [List.foldl_cons]
    refine ⟨⟨t1 ++ t2, ?_⟩, ?_⟩
    · rw [ht2, ht1, List.append_assoc]
    · rw [h4, h2]

/-- C5: after each individual successful download, the record is saved
at once (the step's persisted state is exactly the in-memory record, and
it contains the new URL in the bucket of its kind) before the next link
is attempted — the very next step receives this state; and the in-memory
record's buckets only ever grow, in both loops. -/
theorem claim_C5_write_through :
    (∀ (env : Env) (s : LoopState) (title href : String),
      s.downloaded.videos.contains href = false → env.ok href = true →
      (stepVideo env s (title, href)).persisted =
        some (stepVideo env s (title, href)).downloaded ∧
      href ∈ (stepVideo env s (title, href)).downloaded.videos) ∧
    (∀ (env : Env) (s : LoopState) (title href : String),
      s.downloaded.images.contains href = false → env.ok href = true →
      (stepImage env s (title, href)).persisted =
        some (stepImage env s (title, href)).downloaded ∧
      href ∈ (stepImage env s (title, href)).downloaded.images) ∧
    (∀ (env : Env) (s : LoopState) (links : List (String × String)),
      (∃ t, (processVideos env s links).downloaded.videos = s.downloaded.videos ++ t) ∧
      (processVideos env s links).downloaded.images = s.downloaded.images ∧
      (∃ t, (processImages env s links).downloaded.images = s.downloaded.images ++ t) ∧
      (processImages env s links).downloaded.videos = s.downloaded.videos) := by
  refine ⟨?_, ?_, ?_⟩
  · intro env s title href h1 h2
    have h1m : href ∉ s.downloaded.videos := by simpa using h1
    constructor
    · simp [stepVideo, h1m, h2]
    · simp [stepVideo, h1m, h2]
  · intro env s title href h1 h2
    have h1m : href ∉ s.downloaded.images := by simpa using h1
    constructor
    · simp [stepImage, h1m, h2]
    · simp [stepImage, h1m, h2]
  · intro env s links
    obtain ⟨hv1, hv2⟩ := processVideos_growth env links s
    obtain ⟨hi1, hi2⟩ := processImages_growth env links s
    exact ⟨hv1, hv2, hi1, hi2⟩

theorem claim_C5_witness :
    (stepVideo ⟨fun _ => true, "2024-01-01", "root"⟩
        ⟨⟨[], []⟩, none, 0, 0, []⟩ ("t", "http://a/v.mp4")).persisted =
      some (stepVideo ⟨fun _ => true, "2024-01-01", "root"⟩
        ⟨⟨[], []⟩, none, 0, 0, []⟩ ("t", "http://a/v.mp4")).downloaded ∧
    "http://a/v.mp4" ∈ (stepVideo ⟨fun _ => true, "2024-01-01", "root"⟩
        ⟨⟨[], []⟩, none, 0, 0, []⟩ ("t", "http://a/v.mp4")).downloaded.videos :=
  claim_C5_write_through.1 ⟨fun _ => true, "2024-01-01", "root"⟩
    ⟨⟨[], []⟩, none, 0, 0, []⟩ "t" "http://a/v.mp4" rfl rfl

/-! ### C6: already-recorded links are skipped without invoking the
download engine -/

theorem classifyLinks_mem_video (results : List (String × String)) :
    ∀ l ∈ (classifyLinks results).1, l ∈ results ∧ classify l.1 l.2 = .video := by
  induction results with
  | nil => intro l hl; exact absurd hl (by simp [classifyLinks])
  | cons p rest ih =>
    obtain ⟨t, h⟩ := p
    intro l hl
    unfold classifyLinks at hl
    rcases hc : classify t h with _ | _ <;> rw [hc] at hl
    · simp only at hl
      rcases List.mem_cons.mp hl with h1 | h1
      · subst h1; exact ⟨List.mem_cons_self .., hc⟩
      · obtain ⟨hm, hcl⟩ := ih l h1
        exact ⟨List.mem_cons_of_mem _ hm, hcl⟩
    · simp only at hl
      obtain ⟨hm, hcl⟩ := ih l hl
      exact ⟨List.mem_cons_of_mem _ hm, hcl⟩

theorem classifyLinks_mem_image (results : List (String × String)) :
    ∀ l ∈ (classifyLinks results).2, l ∈ results ∧ classify l.1 l.2 = .image := by
  induction results with
  | nil => intro l hl; exact absurd hl (by simp [classifyLinks])
  | cons p rest ih =>
    obtain ⟨t, h⟩ := p
    intro l hl
    unfold classifyLinks at hl
    rcases hc : classify t h with _ | _ <;> rw [hc] at hl
    · simp only at hl
      obtain ⟨hm, hcl⟩ := ih l hl
      exact ⟨List.mem_cons_of_mem _ hm, hcl⟩
    · simp only at hl
      rcases List.mem_cons.mp hl with h1 | h1
      · subst h1; exact ⟨List.mem_cons_self .., hc⟩
      · obtain ⟨hm, hcl⟩ := ih l h1
        exact ⟨List.mem_cons_of_mem _ hm, hcl⟩

theorem processVideos_allSkipped (env : Env) (links : List (String × String)) :
    ∀ s : LoopState, (∀ l ∈ links, l.2 ∈ s.downloaded.videos) →
      processVideos env s links =
        { s with events := s.events ++ links.map (fun l => .skipped "video" l.2) } := by
  induction links with
  | nil => intro s _; simp [processVideos]
  | cons l rest ih =>
    intro s hmem
    have hl : s.downloaded.videos.contains l.2 = true := by
      simpa using hmem l (List.mem_cons_self ..)
    have hstep : stepVideo env s l = { s with events := s.events ++ [.skipped "video" l.2] } := by
      unfold stepVideo
      rw [if_pos hl]
    unfold processVideos at ih ⊢
    rw [List.foldl_cons, hstep, ih]
    · simp
    · intro l' hl'
      exact hmem l' (List.mem_cons_of_mem _ hl')

theorem processImages_allSkipped (env : Env) (links : List (String × String)) :
    ∀ s : LoopState, (∀ l ∈ links, l.2 ∈ s.downloaded.images) →
      processImages env s links =
        { s with events := s.events ++ links.map (fun l => .skipped "image" l.2) } := by
  induction links with
  | nil => intro s _; simp [processImages]
  | cons l rest ih =>
    intro s hmem
    have hl : s.downloaded.images.contains l.2 = true := by
      simpa using hmem l (List.mem_cons_self ..)
    have hstep : stepImage env s l = { s with events := s.events ++ [.skipped "image" l.2] } := by
      unfold stepImage
      rw [if_pos hl]
    unfold processImages at ih ⊢
    rw [List.foldl_cons, hstep, ih]
    · simp
    · intro l' hl'
      exact hmem l' (List.mem_cons_of_mem _ hl')

/-- C6: in a URL-processing iteration whose every extracted link is
already present in the loaded record's bucket of its kind, every link is
skipped: the persisted record is returned unchanged, the event log holds
only skip events (the download engine is never invoked), and the result
does not depend on the download-outcome oracle at all. -/
theorem claim_C6_second_run_skips (env : Env) (disk : Option Record)
    (results : List (String × String))
    (hmem : ∀ l ∈ results,
      (classify l.1 l.2 = .video → l.2 ∈ (loadRecordDisk disk).videos) ∧
      (classify l.1 l.2 = .image → l.2 ∈ (loadRecordDisk disk).images)) :
    (processUrl env disk results).1 = disk ∧
    (∀ e ∈ (processUrl env disk results).2, ∃ k h, e = DlEvent.skipped k h) ∧
    (∀ ok2 : String → Bool,
      processUrl { env with ok := ok2 } disk results = processUrl env disk results) := by
  by_cases hres : results.isEmpty
  · constructor
    · simp [processUrl, hres]
    constructor
    · intro e he
      simp [processUrl, hres] at he
    · intro ok2
      simp [processUrl, hres]
  · have key : ∀ envx : Env, processUrl envx disk results =
        (disk, (classifyLinks results).1.map (fun l => DlEvent.skipped "video" l.2) ++
          (classifyLinks results).2.map (fun l => DlEvent.skipped "image" l.2)) := by
      intro envx
      simp only [processUrl]
      rw [if_neg (by simpa using hres)]
      have hv : ∀ l ∈ (classifyLinks results).1,
          l.2 ∈ (loadRecordDisk disk).videos := by
        intro l hl
        obtain ⟨hm, hcl⟩ := classifyLinks_mem_video results l hl
        exact (hmem l hm).1 hcl
      rw [processVideos_allSkipped envx (classifyLinks results).1 _ hv]
      have hi : ∀ l ∈ (classifyLinks results).2,
          l.2 ∈ (loadRecordDisk disk).images := by
        intro l hl
        obtain ⟨hm, hcl⟩ := classifyLinks_mem_image results l hl
        exact (hmem l hm).2 hcl
      rw [processImages_allSkipped envx (classifyLinks results).2 _ hi]
      simp
    refine ⟨?_, ?_, ?_⟩
    · rw [key env]
    · intro e he
      rw [key env] at he
      simp only [List.mem_append, List.mem_map] at he
      rcases he with ⟨l, _, hl⟩ | ⟨l, _, hl⟩
      · exact ⟨"video", l.2, hl.symm⟩
      · exact ⟨"image", l.2, hl.symm⟩
    · intro ok2
      rw [key { env with ok := ok2 }, key env]

theorem claim_C6_witness :
    (processUrl ⟨fun _ => true, "2024-01-01", "root"⟩
      (some ⟨["http://a/v.mp4"], ["http://a/i.jpg"]⟩)
      [("Video", "http://a/v.mp4"), ("Image", "http://a/i.jpg")]).1 =
      some ⟨["http://a/v.mp4"], ["http://a/i.jpg"]⟩ :=
  (claim_C6_second_run_skips ⟨fun _ => true, "2024-01-01", "root"⟩
    (some ⟨["http://a/v.mp4"], ["http://a/i.jpg"]⟩)
    [("Video", "http://a/v.mp4"), ("Image", "http://a/i.jpg")]
    (by decide)).1

/-! ### C8: an empty extraction result changes nothing -/

/-- C8: when extraction returns no links for a URL, the iteration writes
nothing (no events at all), leaves the persisted record untouched, and
the worker's remaining behaviour is exactly as if that URL were not
there — it proceeds to the next URL with no error. -/
theorem claim_C8_empty_extraction (env : Env)
    (extract : String → List (String × String)) (url : String)
    (rest : List String) (disks : String → Option Record)
    (hempty : extract url = []) :
    processUrl env (disks (username_from_instagram_url url)) (extract url) =
      (disks (username_from_instagram_url url), []) ∧
    workerRun env extract (url :: rest) disks = workerRun env extract rest disks := by
  have h1 : processUrl env (disks (username_from_instagram_url url)) (extract url) =
      (disks (username_from_instagram_url url), []) := by
    rw [hempty]
    rfl
  refine ⟨h1, ?_⟩
  have hdisks : (fun u => if u = username_from_instagram_url url
      then disks (username_from_instagram_url url) else disks u) = disks := by
    funext u
    by_cases hu : u = username_from_instagram_url url
    · rw [if_pos hu, hu]
    · rw [if_neg hu]
  show (let username := username_from_instagram_url url
    let r := processUrl env (disks username) (extract url)
    let disks2 : String → Option Record := fun u => if u = username then r.1 else disks u
    let rest2 := workerRun env extract rest disks2
    (rest2.1, r.2 ++ rest2.2)) = workerRun env extract rest disks
  simp only [h1, hdisks]
  simp

theorem claim_C8_witness :
    workerRun ⟨fun _ => true, "2024-01-01", "root"⟩ (fun _ => []) ["u1"] (fun _ => none) =
      workerRun ⟨fun _ => true, "2024-01-01", "root"⟩ (fun _ => []) [] (fun _ => none) :=
  (claim_C8_empty_extraction ⟨fun _ => true, "2024-01-01", "root"⟩ (fun _ => [])
    "u1" [] (fun _ => none) rfl).2

/-! ### C10: the index in each destination filename counts the prior
successes of its kind -/

theorem countSucc_append (kind : String) (l1 l2 : List DlEvent) :
    countSucc kind (l1 ++ l2) = countSucc kind l1 + countSucc kind l2 := by
  induction l1 with
  | nil => simp [countSucc]
  | cons e rest ih =>
    cases e with
    | skipped k h => simp [countSucc, ih]
    | attempted k h i f b => simp [countSucc, ih, Nat.add_assoc]

theorem succIndices_append (kind : String) (l1 l2 : List DlEvent) :
    succIndices kind (l1 ++ l2) = succIndices kind l1 ++ succIndices kind l2 := by
  induction l1 with
  | nil => simp [succIndices]
  | cons e rest ih =>
    cases e with
    | skipped k h => simp [succIndices, ih]
    | attempted k h i f b =>
      simp only [List.cons_append, succIndices, ih]
      split <;> simp [ih]

theorem h3_extend (env : Env) (kind : String) (events : List DlEvent) (e : DlEvent)
    (h3 : ∀ k href i fn b, events[k]? = some (DlEvent.attempted kind href i fn b) →
      i = countSucc kind (events.take k) ∧ fn = filename_for env.userRoot kind i env.today)
    (he : ∀ href i fn b, e = DlEvent.attempted kind href i fn b →
      i = countSucc kind events ∧ fn = filename_for env.userRoot kind i env.today) :
    ∀ k href i fn b, (events ++ [e])[k]? = some (DlEvent.attempted kind href i fn b) →
      i = countSucc kind ((events ++ [e]).take k) ∧
      fn = filename_for env.userRoot kind i env.today := by
  intro k href i fn b hk
  by_cases hlt : k < events.length
  · rw [List.getElem?_append_left hlt] at hk
    rw [List.take_append_of_le_length (le_of_lt hlt)]
    exact h3 k href i fn b hk
  · have hge : events.length ≤ k := le_of_not_lt hlt
    by_cases heq : k = events.length
    · subst heq
      rw [List.getElem?_append_right (le_refl _), Nat.sub_self] at hk
      have hke : e = DlEvent.attempted kind href i fn b := by
        have : some e = some (DlEvent.attempted kind href i fn b) := hk
        exact Option.some.inj this
      rw [List.take_append_of_le_length (le_refl _), List.take_length]
      exact he href i fn b hke
    · have hgt : events.length < k := lt_of_le_of_ne hge (Ne.symm heq)
      have hnone : (events ++ [e])[k]? = none := by
        apply List.getElem?_eq_none
        simp
        omega
      rw [hnone] at hk
      exact absurd hk (by simp)

theorem namingInv_append_skip (env : Env) (kind : String) (idx : Nat)
    (events : List DlEvent) (k2 h2 : String)
    (h : namingInv env kind idx events) :
    namingInv env kind idx (events ++ [DlEvent.skipped k2 h2]) := by
  obtain ⟨h1, hrange, h3⟩ := h
  refine ⟨?_, ?_, ?_⟩
  · rw [countSucc_append]
    simpa [countSucc] using h1
  · rw [succIndices_append]
    simpa [succIndices] using hrange
  · exact h3_extend env kind events _ h3
      (fun href i fn b hcontra => DlEvent.noConfusion hcontra)

theorem namingInv_append_other (env : Env) (kind : String) (idx : Nat)
    (events : List DlEvent) (k2 href0 fn0 : String) (i0 : Nat) (b0 : Bool)
    (hk2 : (k2 == kind) = false)
    (h : namingInv env kind idx events) :
    namingInv env kind idx (events ++ [DlEvent.attempted k2 href0 i0 fn0 b0]) := by
  obtain ⟨h1, hrange, h3⟩ := h
  refine ⟨?_, ?_, ?_⟩
  · rw [countSucc_append]
    simpa [countSucc, hk2] using h1
  · rw [succIndices_append]
    simpa [succIndices, hk2] using hrange
  · refine h3_extend env kind events _ h3 ?_
    intro href i fn b hcontra
    injection hcontra with hkk _ _ _ _
    rw [hkk] at hk2
    simp at hk2

theorem namingInv_append_fail (env : Env) (kind : String) (idx : Nat)
    (events : List DlEvent) (href0 : String)
    (h : namingInv env kind idx events) :
    namingInv env kind idx (events ++
      [DlEvent.attempted kind href0 idx (filename_for env.userRoot kind idx env.today) false]) := by
  obtain ⟨h1, hrange, h3⟩ := h
  refine ⟨?_, ?_, ?_⟩
  · rw [countSucc_append]
    simpa [countSucc] using h1
  · rw [succIndices_append]
    simpa [succIndices] using hrange
  · refine h3_extend env kind events _ h3 ?_
    intro href i fn b hcontra
    injection hcontra with _ _ hi hf _
    exact ⟨hi ▸ h1, by rw [← hf, hi]⟩

theorem namingInv_append_success (env : Env) (kind : String) (idx : Nat)
    (events : List DlEvent) (href0 : String)
    (h : namingInv env kind idx events) :
    namingInv env kind (idx + 1) (events ++
      [DlEvent.attempted kind href0 idx (filename_for env.userRoot kind idx env.today) true]) := by
  obtain ⟨h1, hrange, h3⟩ := h
  refine ⟨?_, ?_, ?_⟩
  · rw [countSucc_append]
    simp [countSucc]
    omega
  · rw [succIndices_append]
    simp only [succIndices, beq_self_eq_true, Bool.and_self, if_pos]
    rw [hrange, h1, List.range_succ]
  · refine h3_extend env kind events _ h3 ?_
    intro href i fn b hcontra
    injection hcontra with _ _ hi hf _
    exact ⟨hi ▸ h1, by rw [← hf, hi]⟩

theorem stepVideo_pres (env : Env) (s : LoopState) (l : String × String)
    (hv : namingInv env "video" s.vidIndex s.events)
    (hi : namingInv env "image" s.imgIndex s.events) :
    namingInv env "video" (stepVideo env s l).vidIndex (stepVideo env s l).events ∧
    namingInv env "image" (stepVideo env s l).imgIndex (stepVideo env s l).events := by
  unfold stepVideo
  split
  · exact ⟨namingInv_append_skip env "video" s.vidIndex s.events "video" l.2 hv,
      namingInv_append_skip env "image" s.imgIndex s.events "video" l.2 hi⟩
  · split
    · exact ⟨namingInv_append_success env "video" s.vidIndex s.events l.2 hv,
        namingInv_append_other env "image" s.imgIndex s.events "video" l.2
          (filename_for env.userRoot "video" s.vidIndex env.today) s.vidIndex true rfl hi⟩
    · exact ⟨namingInv_append_fail env "video" s.vidIndex s.events l.2 hv,
        namingInv_append_other env "image" s.imgIndex s.events "video" l.2
          (filename_for env.userRoot "video" s.vidIndex env.today) s.vidIndex false rfl hi⟩

theorem stepImage_pres (env : Env) (s : LoopState) (l : String × String)
    (hv : namingInv env "video" s.vidIndex s.events)
    (hi : namingInv env "image" s.imgIndex s.events) :
    namingInv env "video" (stepImage env s l).vidIndex (stepImage env s l).events ∧
    namingInv env "image" (stepImage env s l).imgIndex (stepImage env s l).events := by
  unfold stepImage
  split
  · exact ⟨namingInv_append_skip env "video" s.vidIndex s.events "image" l.2 hv,
      namingInv_append_skip env "image" s.imgIndex s.events "image" l.2 hi⟩
  · split
    · exact ⟨namingInv_append_other env "video" s.vidIndex s.events "image" l.2
          (filename_for env.userRoot "image" s.imgIndex env.today) s.imgIndex true rfl hv,
        namingInv_append_success env "image" s.imgIndex s.events l.2 hi⟩
    · exact ⟨namingInv_append_other env "video" s.vidIndex s.events "image" l.2
          (filename_for env.userRoot "image" s.imgIndex env.today) s.imgIndex false rfl hv,
        namingInv_append_fail env "image" s.imgIndex s.events l.2 hi⟩

theorem processVideos_pres (env : Env) (links : List (String × String)) :
    ∀ s : LoopState,
      namingInv env "video" s.vidIndex s.events →
      namingInv env "image" s.imgIndex s.events →
      namingInv env "video" (processVideos env s links).vidIndex
        (processVideos env s links).events ∧
      namingInv env "image" (processVideos env s links).imgIndex
        (processVideos env s links).events := by
  induction links with
  | nil => intro s hv hi; exact ⟨hv, hi⟩
  | cons l rest ih =>
    intro s hv hi
    obtain ⟨hv2, hi2⟩ := stepVideo_pres env s l hv hi
    unfold processVideos at ih ⊢
    rw [List.foldl_cons]
    exact ih (stepVideo env s l) hv2 hi2

theorem processImages_pres (env : Env) (links : List (String × String)) :
    ∀ s : LoopState,
      namingInv env "video" s.vidIndex s.events →
      namingInv env "image" s.imgIndex s.events →
      namingInv env "video" (processImages env s links).vidIndex
        (processImages env s links).events ∧
      namingInv env "image" (processImages env s links).imgIndex
        (processImages env s links).events := by
  induction links with
  | nil => intro s hv hi; exact ⟨hv, hi⟩
  | cons l rest ih =>
    intro s hv hi
    obtain ⟨hv2, hi2⟩ := stepImage_pres env s l hv hi
    unfold processImages at ih ⊢
    rw [List.foldl_cons]
    exact ih (stepImage env s l) hv2 hi2

/-- C10: in the event log of one URL-processing iteration, every
attempted download of a kind carries the index (and therefore the
destination filename built from it) equal to the number of successful
downloads of that same kind logged strictly before it — skips and failed
attempts do not advance it, so a failed attempt's filename is reused by
the next new link of the same kind — and the successful downloads of each
kind carry the consecutive indices `0, 1, 2, ...`. -/
theorem claim_C10_naming_index (env : Env) (disk : Option Record)
    (results : List (String × String)) :
    (∀ k href i fn b,
      (processUrl env disk results).2[k]? = some (DlEvent.attempted "video" href i fn b) →
      i = countSucc "video" ((processUrl env disk results).2.take k) ∧
      fn = filename_for env.userRoot "video" i env.today) ∧
    succIndices "video" (processUrl env disk results).2 =
      List.range (countSucc "video" (processUrl env disk results).2) ∧
    (∀ k href i fn b,
      (processUrl env disk results).2[k]? = some (DlEvent.attempted "image" href i fn b) →
      i = countSucc "image" ((processUrl env disk results).2.take k) ∧
      fn = filename_for env.userRoot "image" i env.today) ∧
    succIndices "image" (processUrl env disk results).2 =
      List.range (countSucc "image" (processUrl env disk results).2) := by
  have base : ∀ kind idx, idx = 0 → namingInv env kind idx ([] : List DlEvent) := by
    intro kind idx hidx
    subst hidx
    exact ⟨rfl, rfl, fun k href i fn b hk => absurd hk (by simp)⟩
  by_cases hres : results.isEmpty
  · have hev : (processUrl env disk results).2 = [] := by
      simp [processUrl, hres]
    rw [hev]
    exact ⟨fun k href i fn b hk => absurd hk (by simp), rfl,
      fun k href i fn b hk => absurd hk (by simp), rfl⟩
  · have key : namingInv env "video"
        (processImages env (processVideos env
          ⟨loadRecordDisk disk, disk, 0, 0, []⟩ (classifyLinks results).1)
          (classifyLinks results).2).vidIndex
        (processImages env (processVideos env
          ⟨loadRecordDisk disk, disk, 0, 0, []⟩ (classifyLinks results).1)
          (classifyLinks results).2).events ∧
      namingInv env "image"
        (processImages env (processVideos env
          ⟨loadRecordDisk disk, disk, 0, 0, []⟩ (classifyLinks results).1)
          (classifyLinks results).2).imgIndex
        (processImages env (processVideos env
          ⟨loadRecordDisk disk, disk, 0, 0, []⟩ (classifyLinks results).1)
          (classifyLinks results).2).events := by
      have h0v := base "video" 0 rfl
      have h0i := base "image" 0 rfl
      obtain ⟨hv1, hi1⟩ := processVideos_pres env (classifyLinks results).1
        ⟨loadRecordDisk disk, disk, 0, 0, []⟩ h0v h0i
      exact processImages_pres env (classifyLinks results).2 _ hv1 hi1
    have hev : (processUrl env disk results).2 =
        (processImages env (processVideos env
          ⟨loadRecordDisk disk, disk, 0, 0, []⟩ (classifyLinks results).1)
          (classifyLinks results).2).events := by
      simp only [processUrl]
      rw [if_neg (by simpa using hres)]
    rw [hev]
    obtain ⟨⟨hv1, hv2, hv3⟩, ⟨hi1, hi2, hi3⟩⟩ := key
    exact ⟨hv3, by rw [hv2, hv1], hi3, by rw [hi2, hi1]⟩

theorem claim_C10_witness :
    1 = countSucc "video"
      ((processUrl ⟨fun h => h == "s1" || h == "s2", "2024-01-01", "root"⟩
        (some ⟨["dup"], []⟩)
        [("video", "dup"), ("video", "s1"), ("video", "f1"), ("video", "s2")]).2.take 3) ∧
    "2024-01-01_story_1.mp4" = filename_for "root" "video" 1 "2024-01-01" :=
  (claim_C10_naming_index ⟨fun h => h == "s1" || h == "s2", "2024-01-01", "root"⟩
    (some ⟨["dup"], []⟩)
    [("video", "dup"), ("video", "s1"), ("video", "f1"), ("video", "s2")]).1
    3 "s2" 1 "2024-01-01_story_1.mp4" true (by decide)

end Scraping
